import Mathlib

/-!
Shallow embedding of `CountAndCopy` from
`tensorflow/core/user_ops/scatter_columns_functor.h`, together with proofs
about its validation, padding-run compression and row-copy phases.

Matrices are dense and row-major; we model them as lists of rows.  The two
column walks of the source (the padding-run scan and the per-row copy loop)
are written with an explicit fuel argument, so that a walk that would not
advance shows up as `none` rather than being silently totalized.
-/

namespace ScatterColumns

/-- A dense row-major matrix: a list of rows. -/
abbrev Matrix (α : Type) : Type := List (List α)

/-- Return status of `CountAndCopy` (line 22): success, or one of the two
`errors::InvalidArgument` results.  `duplicateIndexError` carries the total
number of indices and the number of unique indices (lines 35-37);
`outOfRangeIndexError` carries the offending position, its value, and the
bound `out_num_cols` (line 54). -/
inductive Status where
  | ok : Status
  | duplicateIndexError (total : Nat) (unique : Nat) : Status
  | outOfRangeIndexError (pos : Nat) (value : Int) (bound : Nat) : Status
  deriving DecidableEq, Repr

/-- Modelled from the spec: `FastBoundsCheck` (line 52) is declared in
`tensorflow/core/kernels/bounds_check.h`, which is not among the sources;
the spec fixes the accepted range of an index value as the zero-based
half-open interval `[0, W)`. -/
def FastBoundsCheck (index : Int) (limit : Nat) : Bool :=
  decide (0 ≤ index ∧ index < (limit : Int))

/-- Lines 49-58: the loop that range-checks each index and arranges the
inverse map `out_indices`, where `-1` marks a padding column.  `i` is the
loop counter, the list argument is the remaining suffix of `indices`. -/
def arrangeLoop (W : Nat) : Nat → List Int → List Int → Except Status (List Int)
  | _, [], out_indices => Except.ok out_indices
  | i, v :: rest, out_indices =>
    if FastBoundsCheck v W then
      arrangeLoop W (i + 1) rest (out_indices.set v.toNat (Int.ofNat i))
    else
      Except.error (Status.outOfRangeIndexError i v W)

/-- Lines 40-58: `out_indices` starts as `out_num_cols` copies of `-1` and is
filled by `arrangeLoop`. -/
def arrangeOutIndices (indices : List Int) (W : Nat) : Except Status (List Int) :=
  arrangeLoop W 0 indices (List.replicate W (-1))

/-- Lines 74-82: the inner while loop counting consecutive padding columns
starting at `c + pad`; it breaks as soon as `c + pad_cols` reaches
`out_num_cols`.  The fuel argument only bounds the iteration count; with
fuel `W - c` it simulates the while loop exactly. -/
def padScan (out_indices : List Int) (W c : Nat) : Nat → Nat → Nat
  | pad, 0 => pad
  | pad, fuel + 1 =>
    if out_indices.getD (c + pad) 0 < 0 then
      if W ≤ c + (pad + 1) then pad + 1
      else padScan out_indices W c (pad + 1) fuel
    else pad

/-- Lines 89-92: `while (pad_cols > 0) cons_pad_cols[c++] = pad_cols--;`,
writing the descending run lengths `padCols, padCols - 1, ..., 1` at
positions `c, c + 1, ...`. -/
def writeRun (cons : List Nat) (c : Nat) : Nat → List Nat
  | 0 => cons
  | padCols + 1 => writeRun (cons.set c (padCols + 1)) (c + 1) padCols

/-- Lines 72-93: the outer for-loop of the padding-run compressor.  The
state is the current column `c`, the array `cons_pad_cols`, and the running
maximum `max_cons_pad_cols`; one iteration advances `c` past the run it
just wrote plus the for-increment.  With fuel `W` it simulates the loop
exactly, since every iteration advances `c` by at least one. -/
def consPadLoop (out_indices : List Int) (W : Nat) : Nat → List Nat → Nat → Nat → List Nat × Nat
  | _, cons, maxPad, 0 => (cons, maxPad)
  | c, cons, maxPad, fuel + 1 =>
    if c < W then
      let padCols := padScan out_indices W c 0 (W - c)
      let maxPad' := if maxPad < padCols then padCols else maxPad
      consPadLoop out_indices W (c + padCols + 1) (writeRun cons c padCols) maxPad' fuel
    else (cons, maxPad)

/-- Lines 68-93: `cons_pad_cols` (initially all zero) and
`max_cons_pad_cols` (initially zero) after the compressor runs. -/
def consPadColsAndMax (out_indices : List Int) (W : Nat) : List Nat × Nat :=
  consPadLoop out_indices W 0 (List.replicate W 0) 0 W

/-- `memcpy` of `src.length` elements into `dst` at offset `col`. -/
def memcpyRange {α : Type} (dst : List α) (col : Nat) (src : List α) : List α :=
  dst.take col ++ src ++ dst.drop (col + src.length)

/-- Lines 101-129: the per-row column walk.  A mapped column copies one
element of `prow` and advances by one; a padding column copies
`cons_pad_cols[col]` elements of the shared pad vector and advances by that
amount.  The prefetch hints of lines 104-115 have no functional effect and
are omitted.  Fuel exhaustion (`none`) models a walk that fails to reach
column `W`. -/
def copyRow {α : Type} [Inhabited α] (prow : List α) (out_indices : List Int)
    (cons : List Nat) (W : Nat) (padVec : List α) : List α → Nat → Nat → Option (List α)
  | _, _, 0 => none
  | orow, col, fuel + 1 =>
    if col < W then
      if 0 ≤ out_indices.getD col (-1) then
        copyRow prow out_indices cons W padVec
          (orow.set col (prow.getD (out_indices.getD col (-1)).toNat default)) (col + 1) fuel
      else
        copyRow prow out_indices cons W padVec
          (memcpyRange orow col (padVec.take (cons.getD col 0))) (col + cons.getD col 0) fuel
    else some orow

/-- Lines 99-130: the outer row loop; row `row` of `output` is rewritten
from row `row` of `params`, processing `remaining` more rows. -/
def copyRows {α : Type} [Inhabited α] (params : Matrix α) (out_indices : List Int)
    (cons : List Nat) (W : Nat) (padVec : List α) : Nat → Nat → Matrix α → Option (Matrix α)
  | _, 0, output => some output
  | row, remaining + 1, output =>
    match copyRow (params.getD row []) out_indices cons W padVec (output.getD row []) 0 (W + 1) with
    | none => none
    | some newRow =>
      copyRows params out_indices cons W padVec (row + 1) remaining (output.set row newRow)

/-- Lines 22-133: `CountAndCopy`.  Phase order follows the source: the
duplicate check (lines 30-38, via the size of the set of index values),
then the fused range check and inverse-map construction (lines 40-58), the
padding-run compressor (lines 68-93), the shared pad vector (line 96), and
the row copy loop (lines 99-130).  On a validation failure the caller's
`output` is returned untouched; `none` models a copy walk that never
reaches column `W`. -/
def CountAndCopy {α : Type} [Inhabited α] (params : Matrix α) (indices : List Int)
    (out_num_cols : Nat) (pad_elem : α) (params_rows : Nat) (params_cols : Nat)
    (output : Matrix α) : Option (Status × Matrix α) :=
  let indices_size := indices.length
  if indices.dedup.length ≠ indices_size then
    some (Status.duplicateIndexError indices_size indices.dedup.length, output)
  else
    match arrangeOutIndices indices out_num_cols with
    | Except.error e => some (e, output)
    | Except.ok out_indices =>
      let cm := consPadColsAndMax out_indices out_num_cols
      let pad_elem_vec := List.replicate cm.2 pad_elem
      match copyRows params out_indices cm.1 out_num_cols pad_elem_vec 0 params_rows output with
      | none => none
      | some out => some (Status.ok, out)

/-- Validity of the destination indices, as the spec states it: pairwise
distinct, each in the half-open interval `[0, W)`. -/
def ValidIndices (indices : List Int) (W : Nat) : Prop :=
  indices.Nodup ∧ ∀ v ∈ indices, 0 ≤ v ∧ v < (W : Int)

instance (indices : List Int) (W : Nat) : Decidable (ValidIndices indices W) := by
  unfold ValidIndices; infer_instance

/-- Reference run length: the number of consecutive padding columns of
`out_indices` starting at `c` (stopping at the first mapped column or at
`W`).  Used to state what the compressor computes. -/
def runLen (out_indices : List Int) (W : Nat) (c : Nat) : Nat :=
  if h : c < W ∧ out_indices.getD c 0 < 0 then runLen out_indices W (c + 1) + 1 else 0
termination_by W - c
decreasing_by
  omega

/-- Ghost write trace of the per-row column walk of lines 101-129: the list
of destination columns written, in order; a mapped column contributes
itself, a padding column contributes the whole run
`col, col + 1, ..., col + cons_pad_cols[col] - 1`. -/
def rowWriteTrace (out_indices : List Int) (cons : List Nat) (W : Nat) :
    Nat → Nat → Option (List Nat)
  | _, 0 => none
  | col, fuel + 1 =>
    if col < W then
      if 0 ≤ out_indices.getD col (-1) then
        (rowWriteTrace out_indices cons W (col + 1) fuel).map (fun t => col :: t)
      else
        (rowWriteTrace out_indices cons W (col + cons.getD col 0) fuel).map
          (fun t => List.range' col (cons.getD col 0) ++ t)
    else some []

/-! ### Basic list access lemmas -/

theorem getD_set_eq {α : Type} (l : List α) (k : Nat) (x d : α) (h : k < l.length) :
    (l.set k x).getD k d = x := by
  simp [List.getD_eq_getElem?_getD, List.getElem?_set, h]

theorem getD_set_ne {α : Type} (l : List α) (k j : Nat) (x d : α) (h : j ≠ k) :
    (l.set k x).getD j d = l.getD j d := by
  simp [List.getD_eq_getElem?_getD, List.getElem?_set, (Ne.symm h)]

theorem getD_replicate {α : Type} (n : Nat) (a d : α) (c : Nat) :
    (List.replicate n a).getD c d = if c < n then a else d := by
  by_cases h : c < n
  · simp [List.getD_eq_getElem?_getD, List.getElem?_replicate, h]
  · have hle : (List.replicate n a).length ≤ c := by simpa using Nat.le_of_not_lt h
    simp [List.getD_eq_getElem?_getD, List.getElem?_eq_none hle, h]

theorem getD_eq_default {α : Type} (l : List α) (d : α) (c : Nat) (h : l.length ≤ c) :
    l.getD c d = d := by
  simp [List.getD_eq_getElem?_getD, List.getElem?_eq_none h]

/-! ### The range check and inverse-map construction (lines 40-58) -/

theorem arrangeLoop_getD (W : Nat) :
    ∀ (rest : List Int) (i : Nat) (out : List Int),
      (∀ v ∈ rest, 0 ≤ v ∧ v < (W : Int)) → rest.Nodup → out.length = W →
      ∃ res, arrangeLoop W i rest out = Except.ok res ∧ res.length = W ∧
        (∀ j, j < rest.length →
          res.getD ((rest.getD j 0).toNat) (-1) = Int.ofNat (i + j)) ∧
        (∀ c : Nat, (∀ v ∈ rest, v ≠ (c : Int)) → res.getD c (-1) = out.getD c (-1)) := by
  intro rest
  induction rest with
  | nil =>
    intro i out _ _ hlen
    exact ⟨out, rfl, hlen, by simp, fun c _ => rfl⟩
  | cons v rest ih =>
    intro i out hval hnd hlen
    have hv : 0 ≤ v ∧ v < (W : Int) := hval v (List.mem_cons_self v rest)
    have hchk : FastBoundsCheck v W = true := by
      simp [FastBoundsCheck, hv.1, hv.2]
    have hvW : v.toNat < W := by omega
    obtain ⟨res, hres, hlen', h3, h4⟩ :=
      ih (i + 1) (out.set v.toNat (Int.ofNat i))
        (fun u hu => hval u (List.mem_cons_of_mem v hu))
        (List.Nodup.of_cons hnd) (by simpa using hlen)
    have hnotmem : v ∉ rest := (List.nodup_cons.mp hnd).1
    refine ⟨res, ?_, hlen', ?_, ?_⟩
    · simp only [arrangeLoop, hchk, if_true]
      simpa using hres
    · intro j hj
      match j with
      | 0 =>
        have hne : ∀ u ∈ rest, u ≠ ((v.toNat : Nat) : Int) := by
          intro u hu
          have : (v.toNat : Int) = v := Int.toNat_of_nonneg hv.1
          rw [this]
          exact fun he => hnotmem (he ▸ hu)
        have := h4 v.toNat hne
        rw [List.getD_cons_zero, this, getD_set_eq _ _ _ _ (by omega)]
        simp
      | j + 1 =>
        have := h3 j (by simpa using hj)
        rw [List.getD_cons_succ, this]
        congr 1
        omega
    · intro c hc
      have hvc : v ≠ (c : Int) := hc v (List.mem_cons_self v rest)
      have : res.getD c (-1) = (out.set v.toNat (Int.ofNat i)).getD c (-1) :=
        h4 c (fun u hu => hc u (List.mem_cons_of_mem v hu))
      rw [this, getD_set_ne]
      intro he
      exact hvc (by rw [he]; exact (Int.toNat_of_nonneg hv.1).symm)

theorem arrangeLoop_error (W : Nat) :
    ∀ (rest : List Int) (i : Nat) (out : List Int),
      (∃ v ∈ rest, ¬(0 ≤ v ∧ v < (W : Int))) →
      ∃ p v', arrangeLoop W i rest out = Except.error (Status.outOfRangeIndexError p v' W) ∧
        i ≤ p ∧ p - i < rest.length ∧ rest.getD (p - i) 0 = v' ∧
        ¬(0 ≤ v' ∧ v' < (W : Int)) := by
  intro rest
  induction rest with
  | nil => intro i out h; simp at h
  | cons v rest ih =>
    intro i out h
    by_cases hchk : FastBoundsCheck v W = true
    · have hv : 0 ≤ v ∧ v < (W : Int) := by
        have := hchk
        simp [FastBoundsCheck] at this
        exact this
      obtain ⟨u, hu, hbad⟩ := h
      have hur : u ∈ rest := by
        rcases List.mem_cons.mp hu with h | h
        · exact absurd (h ▸ hv) hbad
        · exact h
      obtain ⟨p, v', hres, hip, hplen, hpval, hbad'⟩ :=
        ih (i + 1) (out.set v.toNat (Int.ofNat i)) ⟨u, hur, hbad⟩
      refine ⟨p, v', ?_, by omega, by simp; omega, ?_, hbad'⟩
      · simp only [arrangeLoop, hchk, if_true]
        simpa using hres
      · rw [show p - i = (p - (i + 1)) + 1 by omega, List.getD_cons_succ]
        exact hpval
    · refine ⟨i, v, ?_, Nat.le_refl i, by simp, by simp, ?_⟩
      · simp only [arrangeLoop, hchk]
        simp
      · intro hv
        exact hchk (by simp [FastBoundsCheck, hv.1, hv.2])

theorem arrangeLoop_ok_valid (W : Nat) :
    ∀ (rest : List Int) (i : Nat) (out res : List Int),
      arrangeLoop W i rest out = Except.ok res →
      ∀ v ∈ rest, 0 ≤ v ∧ v < (W : Int) := by
  intro rest
  induction rest with
  | nil => intro i out res _ v hv; simp at hv
  | cons u rest ih =>
    intro i out res hres v hv
    by_cases hchk : FastBoundsCheck u W = true
    · simp only [arrangeLoop, hchk, if_true] at hres
      rcases List.mem_cons.mp hv with h | h
      · subst h
        simpa [FastBoundsCheck] using hchk
      · exact ih _ _ _ hres v h
    · simp [arrangeLoop, hchk] at hres

theorem arrangeOutIndices_spec (indices : List Int) (W : Nat)
    (hval : ValidIndices indices W) :
    ∃ oi, arrangeOutIndices indices W = Except.ok oi ∧ oi.length = W ∧
      (∀ j, j < indices.length →
        oi.getD ((indices.getD j 0).toNat) (-1) = Int.ofNat j) ∧
      (∀ c : Nat, (c : Int) ∉ indices → oi.getD c (-1) = -1) := by
  obtain ⟨res, hres, hlen, h3, h4⟩ :=
    arrangeLoop_getD W indices 0 (List.replicate W (-1)) hval.2 hval.1 (by simp)
  refine ⟨res, hres, hlen, fun j hj => by simpa using h3 j hj, fun c hc => ?_⟩
  rw [h4 c (fun v hv he => hc (he ▸ hv)), getD_replicate]
  split <;> rfl

/-! ### The padding-run compressor (lines 68-93) -/

theorem runLen_eq_zero (oi : List Int) (W c : Nat) (h : ¬(c < W ∧ oi.getD c 0 < 0)) :
    runLen oi W c = 0 := by
  rw [runLen, dif_neg h]

theorem runLen_succ (oi : List Int) (W c : Nat) (h1 : c < W) (h2 : oi.getD c 0 < 0) :
    runLen oi W c = runLen oi W (c + 1) + 1 := by
  rw [runLen, dif_pos ⟨h1, h2⟩]

theorem runLen_pos_guard (oi : List Int) (W c : Nat) (h : 0 < runLen oi W c) :
    c < W ∧ oi.getD c 0 < 0 := by
  by_contra hcon
  rw [runLen_eq_zero oi W c hcon] at h
  omega

theorem runLen_le (oi : List Int) (W c : Nat) : runLen oi W c ≤ W - c := by
  by_cases h : c < W ∧ oi.getD c 0 < 0
  · rw [runLen_succ oi W c h.1 h.2]
    have := runLen_le oi W (c + 1)
    omega
  · rw [runLen_eq_zero oi W c h]
    omega
termination_by W - c
decreasing_by omega

theorem runLen_add (oi : List Int) (W : Nat) :
    ∀ (j c : Nat), j ≤ runLen oi W c → runLen oi W (c + j) = runLen oi W c - j := by
  intro j
  induction j with
  | zero => intro c _; simp
  | succ j ih =>
    intro c hj
    have hguard : c < W ∧ oi.getD c 0 < 0 := runLen_pos_guard oi W c (by omega)
    have hs := runLen_succ oi W c hguard.1 hguard.2
    have hrec := ih (c + 1) (by omega)
    rw [show c + (j + 1) = c + 1 + j by omega, hrec]
    omega

theorem padScan_eq (oi : List Int) (W : Nat) :
    ∀ (fuel c pad : Nat), c + pad < W → W - (c + pad) ≤ fuel →
      padScan oi W c pad fuel = pad + runLen oi W (c + pad) := by
  intro fuel
  induction fuel with
  | zero => intro c pad h1 h2; omega
  | succ fuel ih =>
    intro c pad h1 h2
    rw [padScan]
    by_cases hneg : oi.getD (c + pad) 0 < 0
    · rw [if_pos hneg]
      have hrl := runLen_succ oi W (c + pad) h1 hneg
      by_cases hend : W ≤ c + (pad + 1)
      · rw [if_pos hend]
        have hz : runLen oi W (c + pad + 1) = 0 := runLen_eq_zero _ _ _ (by omega)
        omega
      · rw [if_neg hend]
        have hih := ih c (pad + 1) (by omega) (by omega)
        rw [hih, show c + (pad + 1) = c + pad + 1 by omega]
        omega
    · rw [if_neg hneg, runLen_eq_zero oi W (c + pad) (by tauto)]
      omega

theorem writeRun_length (cons : List Nat) (c L : Nat) :
    (writeRun cons c L).length = cons.length := by
  induction L generalizing cons c with
  | zero => rfl
  | succ L ih => rw [writeRun, ih]; simp

theorem writeRun_getD :
    ∀ (L : Nat) (cons : List Nat) (c : Nat), c + L ≤ cons.length →
      ∀ j, (writeRun cons c L).getD j 0 =
        if c ≤ j ∧ j < c + L then c + L - j else cons.getD j 0 := by
  intro L
  induction L with
  | zero =>
    intro cons c _ j
    rw [writeRun, if_neg (by omega)]
  | succ L ih =>
    intro cons c hc j
    rw [writeRun, ih (cons.set c (L + 1)) (c + 1) (by simp; omega) j]
    by_cases h1 : c + 1 ≤ j ∧ j < c + 1 + L
    · rw [if_pos h1, if_pos (by omega)]
      omega
    · rw [if_neg h1]
      by_cases h2 : j = c
      · subst h2
        rw [getD_set_eq _ _ _ _ (by omega), if_pos (by omega)]
        omega
      · rw [getD_set_ne _ _ _ _ _ h2, if_neg (by omega)]

theorem consPadLoop_spec (oi : List Int) (W : Nat) :
    ∀ (fuel c : Nat) (cons : List Nat) (maxPad : Nat),
      cons.length = W → W - c ≤ fuel → (∀ j, c ≤ j → cons.getD j 0 = 0) →
      (consPadLoop oi W c cons maxPad fuel).1.length = W ∧
      (∀ j, j < c →
        (consPadLoop oi W c cons maxPad fuel).1.getD j 0 = cons.getD j 0) ∧
      (∀ j, c ≤ j →
        (consPadLoop oi W c cons maxPad fuel).1.getD j 0 = runLen oi W j) ∧
      maxPad ≤ (consPadLoop oi W c cons maxPad fuel).2 ∧
      (∀ j, c ≤ j → runLen oi W j ≤ (consPadLoop oi W c cons maxPad fuel).2) := by
  intro fuel
  induction fuel with
  | zero =>
    intro c cons maxPad hlen hfuel hzero
    rw [consPadLoop]
    refine ⟨hlen, fun j _ => rfl, fun j hj => ?_, Nat.le_refl _, fun j hj => ?_⟩
    · rw [hzero j hj, runLen_eq_zero oi W j (by omega)]
    · rw [runLen_eq_zero oi W j (by omega)]
      omega
  | succ fuel ih =>
    intro c cons maxPad hlen hfuel hzero
    by_cases hc : c < W
    · have hL : padScan oi W c 0 (W - c) = runLen oi W c := by
        have := padScan_eq oi W (W - c) c 0 (by omega) (by omega)
        simpa using this
      have hLle : runLen oi W c ≤ W - c := runLen_le oi W c
      have hstep : consPadLoop oi W c cons maxPad (fuel + 1) =
          consPadLoop oi W (c + runLen oi W c + 1) (writeRun cons c (runLen oi W c))
            (if maxPad < runLen oi W c then runLen oi W c else maxPad) fuel := by
        rw [consPadLoop]
        simp only [hc, if_true, hL]
      set L := runLen oi W c with hLdef
      set mx' := if maxPad < L then L else maxPad with hmx'
      have hwlen : (writeRun cons c L).length = W := by rw [writeRun_length, hlen]
      have hwget := writeRun_getD L cons c (by omega)
      have hzero' : ∀ j, c + L + 1 ≤ j → (writeRun cons c L).getD j 0 = 0 := by
        intro j hj
        rw [hwget j, if_neg (by omega)]
        exact hzero j (by omega)
      obtain ⟨ih1, ih2, ih3, ih4, ih5⟩ :=
        ih (c + L + 1) (writeRun cons c L) mx' hwlen (by omega) hzero'
      rw [hstep]
      have hrun : ∀ j, c ≤ j → j ≤ c + L → runLen oi W j = L - (j - c) := by
        intro j hj1 hj2
        have := runLen_add oi W (j - c) c (by omega)
        rw [show c + (j - c) = j by omega] at this
        omega
      refine ⟨ih1, fun j hj => ?_, fun j hj => ?_, ?_, fun j hj => ?_⟩
      · rw [ih2 j (by omega), hwget j, if_neg (by omega)]
      · by_cases hj1 : c + L + 1 ≤ j
        · exact ih3 j hj1
        · by_cases hj2 : j = c + L
          · rw [ih2 j (by omega), hwget j, if_neg (by omega), hzero j (by omega),
              hrun j (by omega) (by omega)]
            omega
          · rw [ih2 j (by omega), hwget j, if_pos (by omega),
              hrun j (by omega) (by omega)]
            omega
      · have : maxPad ≤ mx' := by rw [hmx']; split <;> omega
        omega
      · by_cases hj1 : c + L + 1 ≤ j
        · exact ih5 j hj1
        · have hv := hrun j hj (by omega)
          have hle : L ≤ mx' := by rw [hmx']; split <;> omega
          omega
    · rw [consPadLoop, if_neg hc]
      refine ⟨hlen, fun j _ => rfl, fun j hj => ?_, Nat.le_refl _, fun j hj => ?_⟩
      · rw [hzero j hj, runLen_eq_zero oi W j (by omega)]
      · rw [runLen_eq_zero oi W j (by omega)]
        omega

theorem consPadColsAndMax_spec (oi : List Int) (W : Nat) :
    (consPadColsAndMax oi W).1.length = W ∧
    (∀ j, (consPadColsAndMax oi W).1.getD j 0 = runLen oi W j) ∧
    (∀ j, runLen oi W j ≤ (consPadColsAndMax oi W).2) := by
  have h := consPadLoop_spec oi W W 0 (List.replicate W 0) 0 (by simp) (by omega)
    (fun j _ => by rw [getD_replicate]; split <;> rfl)
  exact ⟨h.1, fun j => h.2.2.1 j (Nat.zero_le j), fun j => h.2.2.2.2 j (Nat.zero_le j)⟩

/-! ### The row copy engine (lines 99-130) -/

theorem getD_irrel {α : Type} (l : List α) (i : Nat) (d1 d2 : α) (h : i < l.length) :
    l.getD i d1 = l.getD i d2 := by
  rw [List.getD_eq_getElem l d1 h, List.getD_eq_getElem l d2 h]

theorem memcpyRange_length {α : Type} (dst : List α) (col : Nat) (src : List α)
    (h : col + src.length ≤ dst.length) :
    (memcpyRange dst col src).length = dst.length := by
  simp [memcpyRange]
  omega

theorem memcpyRange_getD {α : Type} (dst : List α) (col : Nat) (src : List α) (d : α)
    (h : col + src.length ≤ dst.length) (j : Nat) :
    (memcpyRange dst col src).getD j d =
      if col ≤ j ∧ j < col + src.length then src.getD (j - col) d else dst.getD j d := by
  have hlt : (dst.take col).length = col := List.length_take_of_le (by omega)
  have hlen2 : (dst.take col ++ src).length = col + src.length := by
    rw [List.length_append, hlt]
  by_cases h1 : j < col
  · rw [memcpyRange, List.getD_eq_getElem?_getD, List.getElem?_append, hlen2,
      if_pos (by omega), List.getElem?_append, hlt, if_pos h1, List.getElem?_take,
      if_pos h1, if_neg (by omega), List.getD_eq_getElem?_getD]
  · by_cases h2 : j < col + src.length
    · rw [memcpyRange, List.getD_eq_getElem?_getD, List.getElem?_append, hlen2,
        if_pos (by omega), List.getElem?_append, hlt, if_neg (by omega),
        if_pos (by omega), List.getD_eq_getElem?_getD]
    · rw [memcpyRange, List.getD_eq_getElem?_getD, List.getElem?_append, hlen2,
        if_neg (by omega), List.getElem?_drop,
        show col + src.length + (j - (col + src.length)) = j by omega,
        if_neg (by omega), List.getD_eq_getElem?_getD]

theorem copyRow_spec {α : Type} [Inhabited α] (prow : List α) (oi : List Int)
    (cons : List Nat) (W : Nat) (padVec : List α) (pad : α)
    (hoiW : oi.length = W)
    (hcons : ∀ j, cons.getD j 0 = runLen oi W j)
    (hpadVec : padVec = List.replicate padVec.length pad)
    (hmax : ∀ j, runLen oi W j ≤ padVec.length) :
    ∀ (fuel col : Nat) (orow : List α), col ≤ W → W + 1 - col ≤ fuel → orow.length = W →
      ∃ res, copyRow prow oi cons W padVec orow col fuel = some res ∧
        res.length = W ∧
        (∀ j, j < col → res.getD j default = orow.getD j default) ∧
        (∀ j, col ≤ j → j < W →
          res.getD j default =
            if 0 ≤ oi.getD j (-1) then prow.getD (oi.getD j (-1)).toNat default else pad) := by
  intro fuel
  induction fuel with
  | zero => intro col orow hcol hfuel _; omega
  | succ fuel ih =>
    intro col orow hcol hfuel hlen
    by_cases hc : col < W
    · by_cases hmap : 0 ≤ oi.getD col (-1)
      · rw [copyRow, if_pos hc, if_pos hmap]
        obtain ⟨res, hres, hrlen, hbelow, habove⟩ :=
          ih (col + 1) (orow.set col (prow.getD (oi.getD col (-1)).toNat default))
            (by omega) (by omega) (by simpa using hlen)
        refine ⟨res, hres, hrlen, fun j hj => ?_, fun j hj1 hj2 => ?_⟩
        · rw [hbelow j (by omega), getD_set_ne _ _ _ _ _ (by omega)]
        · by_cases hje : j = col
          · subst hje
            rw [hbelow j (by omega), getD_set_eq _ _ _ _ (by omega), if_pos hmap]
          · exact habove j (by omega) hj2
      · rw [copyRow, if_pos hc, if_neg hmap]
        have hneg : oi.getD col 0 < 0 := by
          rw [getD_irrel oi col 0 (-1) (by omega)]
          omega
        have hrun : cons.getD col 0 = runLen oi W col := hcons col
        have hrpos : 0 < runLen oi W col := by
          rw [runLen_succ oi W col hc hneg]
          omega
        have hrle : runLen oi W col ≤ W - col := runLen_le oi W col
        have htake : padVec.take (cons.getD col 0) =
            List.replicate (runLen oi W col) pad := by
          rw [hrun]
          conv_lhs => rw [hpadVec]
          rw [List.take_replicate]
          congr 1
          have := hmax col
          omega
        have hlen' : (memcpyRange orow col (padVec.take (cons.getD col 0))).length = W := by
          rw [memcpyRange_length]
          · exact hlen
          · rw [htake]
            simp
            omega
        obtain ⟨res, hres, hrlen, hbelow, habove⟩ :=
          ih (col + cons.getD col 0) (memcpyRange orow col (padVec.take (cons.getD col 0)))
            (by omega) (by omega) hlen'
        have hmemget : ∀ j, (memcpyRange orow col (padVec.take (cons.getD col 0))).getD j default =
            if col ≤ j ∧ j < col + runLen oi W col then pad else orow.getD j default := by
          intro j
          rw [memcpyRange_getD _ _ _ _ (by rw [htake]; simp; omega) j, htake,
            List.length_replicate]
          by_cases hcond : col ≤ j ∧ j < col + runLen oi W col
          · rw [if_pos hcond, if_pos hcond, getD_replicate, if_pos (by omega)]
          · rw [if_neg hcond, if_neg hcond]
        refine ⟨res, hres, hrlen, fun j hj => ?_, fun j hj1 hj2 => ?_⟩
        · rw [hbelow j (by omega), hmemget j, if_neg (by omega)]
        · by_cases hjin : j < col + runLen oi W col
          · have hjneg : oi.getD j (-1) < 0 := by
              have hjr : runLen oi W j = runLen oi W col - (j - col) := by
                have := runLen_add oi W (j - col) col (by omega)
                rw [show col + (j - col) = j by omega] at this
                exact this
              have hjpos : 0 < runLen oi W j := by omega
              have := (runLen_pos_guard oi W j hjpos).2
              rw [getD_irrel oi j (-1) 0 (by omega)]
              exact this
            rw [hbelow j (by omega), hmemget j, if_pos (by omega), if_neg (by omega)]
          · exact habove j (by omega) hj2
    · rw [copyRow, if_neg hc]
      exact ⟨orow, rfl, hlen, fun j _ => rfl, fun j hj1 hj2 => by omega⟩

theorem copyRow_isSome {α : Type} [Inhabited α] (prow : List α) (oi : List Int)
    (cons : List Nat) (W : Nat) (padVec : List α)
    (hoiW : oi.length = W)
    (hcons : ∀ j, cons.getD j 0 = runLen oi W j) :
    ∀ (fuel col : Nat) (orow : List α), col ≤ W → W + 1 - col ≤ fuel →
      (copyRow prow oi cons W padVec orow col fuel).isSome := by
  intro fuel
  induction fuel with
  | zero => intro col orow hcol hfuel; omega
  | succ fuel ih =>
    intro col orow hcol hfuel
    by_cases hc : col < W
    · by_cases hmap : 0 ≤ oi.getD col (-1)
      · rw [copyRow, if_pos hc, if_pos hmap]
        exact ih (col + 1) _ (by omega) (by omega)
      · rw [copyRow, if_pos hc, if_neg hmap]
        have hneg : oi.getD col 0 < 0 := by
          rw [getD_irrel oi col 0 (-1) (by omega)]
          omega
        have hrpos : 0 < runLen oi W col := by
          rw [runLen_succ oi W col hc hneg]
          omega
        have hrle : runLen oi W col ≤ W - col := runLen_le oi W col
        have hrun : cons.getD col 0 = runLen oi W col := hcons col
        exact ih (col + cons.getD col 0) _ (by omega) (by omega)
    · rw [copyRow, if_neg hc]
      rfl

theorem copyRow_padVec_irrel {α : Type} [Inhabited α] (prow : List α) (oi : List Int)
    (cons : List Nat) (W : Nat) (padVec padVec' : List α)
    (hall : ∀ c, c < W → 0 ≤ oi.getD c (-1)) :
    ∀ (fuel col : Nat) (orow : List α),
      copyRow prow oi cons W padVec orow col fuel =
        copyRow prow oi cons W padVec' orow col fuel := by
  intro fuel
  induction fuel with
  | zero => intro col orow; rfl
  | succ fuel ih =>
    intro col orow
    by_cases hc : col < W
    · rw [copyRow, copyRow, if_pos hc, if_pos hc, if_pos (hall col hc), if_pos (hall col hc)]
      exact ih (col + 1) _
    · rw [copyRow, copyRow, if_neg hc, if_neg hc]

theorem copyRows_spec {α : Type} [Inhabited α] (params : Matrix α) (oi : List Int)
    (cons : List Nat) (W : Nat) (padVec : List α)
    (hsome : ∀ (prow orow : List α),
      (copyRow prow oi cons W padVec orow 0 (W + 1)).isSome) :
    ∀ (remaining row : Nat) (output : Matrix α), row + remaining ≤ output.length →
      ∃ out, copyRows params oi cons W padVec row remaining output = some out ∧
        out.length = output.length ∧
        (∀ r, r < row ∨ row + remaining ≤ r → out.getD r [] = output.getD r []) ∧
        (∀ r, row ≤ r → r < row + remaining →
          copyRow (params.getD r []) oi cons W padVec (output.getD r []) 0 (W + 1) =
            some (out.getD r [])) := by
  intro remaining
  induction remaining with
  | zero =>
    intro row output _
    exact ⟨output, rfl, rfl, fun r _ => rfl, fun r h1 h2 => by omega⟩
  | succ remaining ih =>
    intro row output hle
    obtain ⟨newRow, hnew⟩ :=
      Option.isSome_iff_exists.mp (hsome (params.getD row []) (output.getD row []))
    obtain ⟨out, hout, hlen, huntouched, hdone⟩ :=
      ih (row + 1) (output.set row newRow) (by rw [List.length_set]; omega)
    refine ⟨out, ?_, by simpa using hlen, fun r hr => ?_, fun r hr1 hr2 => ?_⟩
    · rw [copyRows, hnew]
      exact hout
    · have hne : r ≠ row := by omega
      rw [huntouched r (by omega), getD_set_ne _ _ _ _ _ hne]
    · by_cases hre : r = row
      · subst hre
        rw [huntouched r (by omega), getD_set_eq _ _ _ _ (by omega)]
        exact hnew
      · have := hdone r (by omega) (by omega)
        rwa [getD_set_ne _ _ _ _ _ hre] at this

/-! ### Top-level characterization of `CountAndCopy` -/

theorem CountAndCopy_dup {α : Type} [Inhabited α] (params : Matrix α) (indices : List Int)
    (W : Nat) (pad : α) (params_rows params_cols : Nat) (output : Matrix α)
    (hdup : ¬indices.Nodup) :
    CountAndCopy params indices W pad params_rows params_cols output =
      some (Status.duplicateIndexError indices.length indices.dedup.length, output) := by
  have hne : indices.dedup.length ≠ indices.length := by
    intro he
    exact hdup (List.dedup_eq_self.mp (List.Sublist.eq_of_length (List.dedup_sublist indices) he))
  rw [CountAndCopy]
  simp only [hne, if_true, ne_eq, not_false_eq_true, if_pos]

theorem CountAndCopy_range_error {α : Type} [Inhabited α] (params : Matrix α)
    (indices : List Int) (W : Nat) (pad : α) (params_rows params_cols : Nat)
    (output : Matrix α) (hnd : indices.Nodup)
    (hbad : ∃ v ∈ indices, ¬(0 ≤ v ∧ v < (W : Int))) :
    ∃ p v', CountAndCopy params indices W pad params_rows params_cols output =
        some (Status.outOfRangeIndexError p v' W, output) ∧
      p < indices.length ∧ indices.getD p 0 = v' ∧ ¬(0 ≤ v' ∧ v' < (W : Int)) := by
  obtain ⟨p, v', herr, _, hplen, hpval, hbad'⟩ :=
    arrangeLoop_error W indices 0 (List.replicate W (-1)) hbad
  have hdedup : indices.dedup.length = indices.length := by
    rw [List.Nodup.dedup hnd]
  refine ⟨p, v', ?_, by simpa using hplen, by simpa using hpval, hbad'⟩
  rw [CountAndCopy]
  simp only [hdedup, ne_eq, not_true_eq_false, if_false, ite_false]
  rw [show arrangeOutIndices indices W = Except.error (Status.outOfRangeIndexError p v' W)
    from herr]

theorem CountAndCopy_ok {α : Type} [Inhabited α] (params : Matrix α) (indices : List Int)
    (W : Nat) (pad : α) (params_rows params_cols : Nat) (output : Matrix α)
    (hval : ValidIndices indices W)
    (hrows : params_rows ≤ output.length)
    (hrowlen : ∀ r, r < params_rows → (output.getD r []).length = W) :
    ∃ out, CountAndCopy params indices W pad params_rows params_cols output =
        some (Status.ok, out) ∧
      out.length = output.length ∧
      (∀ r, params_rows ≤ r → out.getD r [] = output.getD r []) ∧
      (∀ r, r < params_rows → (out.getD r []).length = W) ∧
      (∀ r c, r < params_rows → c < W →
        (∀ src, src < indices.length → indices.getD src 0 = (c : Int) →
          (out.getD r []).getD c default = (params.getD r []).getD src default) ∧
        ((c : Int) ∉ indices → (out.getD r []).getD c default = pad)) := by
  obtain ⟨oi, hoi, hoilen, hmapped, hunmapped⟩ := arrangeOutIndices_spec indices W hval
  obtain ⟨hclen, hcget, hcmax⟩ := consPadColsAndMax_spec oi W
  have hdedup : indices.dedup.length = indices.length := by
    rw [List.Nodup.dedup hval.1]
  have hsome : ∀ (prow orow : List α),
      (copyRow prow oi (consPadColsAndMax oi W).1 W
        (List.replicate (consPadColsAndMax oi W).2 pad) orow 0 (W + 1)).isSome :=
    fun prow orow =>
      copyRow_isSome prow oi (consPadColsAndMax oi W).1 W
        (List.replicate (consPadColsAndMax oi W).2 pad) hoilen hcget (W + 1) 0 orow
        (Nat.zero_le W) (by omega)
  obtain ⟨out, hcr, hlen, huntouched, hdone⟩ :=
    copyRows_spec params oi (consPadColsAndMax oi W).1 W
      (List.replicate (consPadColsAndMax oi W).2 pad) hsome params_rows 0 output
      (by omega)
  have hcall : CountAndCopy params indices W pad params_rows params_cols output =
      some (Status.ok, out) := by
    rw [CountAndCopy]
    simp only [hdedup, ne_eq, not_true_eq_false, if_false, ite_false]
    rw [show arrangeOutIndices indices W = Except.ok oi from hoi]
    simp only [hcr]
  have hrowchar : ∀ r, r < params_rows →
      (out.getD r []).length = W ∧
      ∀ c, c < W → (out.getD r []).getD c default =
        if 0 ≤ oi.getD c (-1)
        then (params.getD r []).getD (oi.getD c (-1)).toNat default else pad := by
    intro r hr
    obtain ⟨res, hres, hreslen, _, habove⟩ :=
      copyRow_spec (params.getD r []) oi (consPadColsAndMax oi W).1 W
        (List.replicate (consPadColsAndMax oi W).2 pad) pad hoilen hcget (by simp)
        (fun j => by simpa using hcmax j) (W + 1) 0 (output.getD r [])
        (Nat.zero_le W) (by omega) (hrowlen r hr)
    have hres' := hdone r (Nat.zero_le r) (by omega)
    rw [hres] at hres'
    have heq : res = out.getD r [] := Option.some_injective _ hres'
    subst heq
    exact ⟨hreslen, fun c hc => habove c (Nat.zero_le c) hc⟩
  refine ⟨out, hcall, hlen, fun r hr => huntouched r (Or.inr (by omega)),
    fun r hr => (hrowchar r hr).1, fun r c hr hc => ⟨fun src hsrc hsrcc => ?_, fun hnot => ?_⟩⟩
  · have hv := hmapped src hsrc
    rw [hsrcc] at hv
    have : (((c : Int)).toNat) = c := by simp
    rw [this] at hv
    rw [(hrowchar r hr).2 c hc, hv,
      if_pos (show (0 : Int) ≤ Int.ofNat src from Int.ofNat_zero_le src)]
    simp
  · have hv := hunmapped c hnot
    rw [(hrowchar r hr).2 c hc, hv, if_neg (by omega)]

theorem copyRows_isSome {α : Type} [Inhabited α] (params : Matrix α) (oi : List Int)
    (cons : List Nat) (W : Nat) (padVec : List α)
    (hsome : ∀ (prow orow : List α),
      (copyRow prow oi cons W padVec orow 0 (W + 1)).isSome) :
    ∀ (remaining row : Nat) (output : Matrix α),
      (copyRows params oi cons W padVec row remaining output).isSome := by
  intro remaining
  induction remaining with
  | zero => intro row output; rfl
  | succ remaining ih =>
    intro row output
    obtain ⟨newRow, hnew⟩ :=
      Option.isSome_iff_exists.mp (hsome (params.getD row []) (output.getD row []))
    rw [copyRows, hnew]
    exact ih (row + 1) (output.set row newRow)

theorem copyRows_padVec_irrel {α : Type} [Inhabited α] (params : Matrix α) (oi : List Int)
    (cons : List Nat) (W : Nat) (padVec padVec' : List α)
    (hall : ∀ c, c < W → 0 ≤ oi.getD c (-1)) :
    ∀ (remaining row : Nat) (output : Matrix α),
      copyRows params oi cons W padVec row remaining output =
        copyRows params oi cons W padVec' row remaining output := by
  intro remaining
  induction remaining with
  | zero => intro row output; rfl
  | succ remaining ih =>
    intro row output
    rw [copyRows, copyRows,
      copyRow_padVec_irrel (params.getD row []) oi cons W padVec padVec' hall (W + 1) 0
        (output.getD row [])]
    cases copyRow (params.getD row []) oi cons W padVec' (output.getD row []) 0 (W + 1) with
    | none => rfl
    | some newRow => exact ih (row + 1) (output.set row newRow)

theorem CountAndCopy_pipeline {α : Type} [Inhabited α] (params : Matrix α)
    (indices : List Int) (W : Nat) (pad : α) (params_rows params_cols : Nat)
    (output : Matrix α) (oi : List Int) (out : Matrix α)
    (hnd : indices.Nodup)
    (hoi : arrangeOutIndices indices W = Except.ok oi)
    (hcr : copyRows params oi (consPadColsAndMax oi W).1 W
      (List.replicate (consPadColsAndMax oi W).2 pad) 0 params_rows output = some out) :
    CountAndCopy params indices W pad params_rows params_cols output =
      some (Status.ok, out) := by
  have hdedup : indices.dedup.length = indices.length := by
    rw [List.Nodup.dedup hnd]
  rw [CountAndCopy]
  simp only [hdedup, ne_eq, not_true_eq_false, if_false, ite_false]
  rw [show arrangeOutIndices indices W = Except.ok oi from hoi]
  simp only [hcr]

theorem CountAndCopy_ok_any {α : Type} [Inhabited α] (params : Matrix α)
    (indices : List Int) (W : Nat) (pad : α) (params_rows params_cols : Nat)
    (output : Matrix α) (hval : ValidIndices indices W) :
    ∃ out, CountAndCopy params indices W pad params_rows params_cols output =
      some (Status.ok, out) := by
  obtain ⟨oi, hoi, hoilen, _, _⟩ := arrangeOutIndices_spec indices W hval
  obtain ⟨_, hcget, _⟩ := consPadColsAndMax_spec oi W
  have hsome : ∀ (prow orow : List α),
      (copyRow prow oi (consPadColsAndMax oi W).1 W
        (List.replicate (consPadColsAndMax oi W).2 pad) orow 0 (W + 1)).isSome :=
    fun prow orow =>
      copyRow_isSome prow oi (consPadColsAndMax oi W).1 W
        (List.replicate (consPadColsAndMax oi W).2 pad) hoilen hcget (W + 1) 0 orow
        (Nat.zero_le W) (by omega)
  obtain ⟨out, hout⟩ := Option.isSome_iff_exists.mp
    (copyRows_isSome params oi (consPadColsAndMax oi W).1 W
      (List.replicate (consPadColsAndMax oi W).2 pad) hsome params_rows 0 output)
  exact ⟨out, CountAndCopy_pipeline params indices W pad params_rows params_cols output
    oi out hval.1 hoi hout⟩

/-- When the indices are valid, pairwise distinct, and there are `W` of
them, every destination column is mapped. -/
theorem all_mapped_of_full (indices : List Int) (W : Nat)
    (hval : ValidIndices indices W) (hlen : indices.length = W) :
    ∀ c : Nat, c < W → (c : Int) ∈ indices := by
  intro c hc
  have hsub : indices.toFinset ⊆ Finset.Ico (0 : Int) (W : Int) := by
    intro v hv
    rw [List.mem_toFinset] at hv
    rw [Finset.mem_Ico]
    exact hval.2 v hv
  have hcard : indices.toFinset.card = W := by
    rw [List.card_toFinset, List.Nodup.dedup hval.1, hlen]
  have hIcoCard : (Finset.Ico (0 : Int) (W : Int)).card = W := by
    rw [Int.card_Ico]
    simp
  have heq : indices.toFinset = Finset.Ico (0 : Int) (W : Int) :=
    Finset.eq_of_subset_of_card_le hsub (by omega)
  have : (c : Int) ∈ indices.toFinset := by
    rw [heq, Finset.mem_Ico]
    constructor
    · exact Int.ofNat_zero_le c
    · exact_mod_cast hc
  exact List.mem_toFinset.mp this

/-- The ghost write trace of a full walk from `col` is exactly the interval
of columns `[col, W)`, in order. -/
theorem rowWriteTrace_spec (oi : List Int) (cons : List Nat) (W : Nat)
    (hoiW : oi.length = W) (hcons : ∀ j, cons.getD j 0 = runLen oi W j) :
    ∀ (fuel col : Nat), col ≤ W → W + 1 - col ≤ fuel →
      rowWriteTrace oi cons W col fuel = some (List.range' col (W - col)) := by
  intro fuel
  induction fuel with
  | zero => intro col hcol hfuel; omega
  | succ fuel ih =>
    intro col hcol hfuel
    by_cases hc : col < W
    · by_cases hmap : 0 ≤ oi.getD col (-1)
      · rw [rowWriteTrace, if_pos hc, if_pos hmap, ih (col + 1) (by omega) (by omega)]
        rw [Option.map_some', show W - col = (W - (col + 1)) + 1 by omega, List.range'_succ]
      · rw [rowWriteTrace, if_pos hc, if_neg hmap]
        have hneg : oi.getD col 0 < 0 := by
          rw [getD_irrel oi col 0 (-1) (by omega)]
          omega
        have hrpos : 0 < runLen oi W col := by
          rw [runLen_succ oi W col hc hneg]
          omega
        have hrle : runLen oi W col ≤ W - col := runLen_le oi W col
        have hrun : cons.getD col 0 = runLen oi W col := hcons col
        rw [ih (col + cons.getD col 0) (by omega) (by omega), Option.map_some']
        congr 1
        rw [hrun]
        have := List.range'_append col (runLen oi W col) (W - (col + runLen oi W col)) 1
        simp only [one_mul] at this
        rw [show W - col = W - (col + runLen oi W col) + runLen oi W col by omega, ← this]
    · rw [rowWriteTrace, if_neg hc, show W - col = 0 by omega, List.range']

/-! ### Claim theorems -/

/-- C1: for every valid input (destination indices pairwise distinct and
each in `[0, W)`) and a pre-sized output buffer, `CountAndCopy` succeeds,
and afterwards for every row `r` and destination column `c < W` the output
cell equals the params cell of the mapped source column when
`indices src = c`, and equals the pad value when `c` is unmapped. -/
theorem countAndCopy_mapping_correct {α : Type} [Inhabited α] (params : Matrix α)
    (indices : List Int) (W : Nat) (pad : α) (params_rows params_cols : Nat)
    (output : Matrix α)
    (hval : ValidIndices indices W)
    (hrows : params_rows ≤ output.length)
    (hrowlen : ∀ r, r < params_rows → (output.getD r []).length = W) :
    ∃ out, CountAndCopy params indices W pad params_rows params_cols output =
        some (Status.ok, out) ∧
      ∀ r c, r < params_rows → c < W →
        (∀ src, src < indices.length → indices.getD src 0 = (c : Int) →
          (out.getD r []).getD c default = (params.getD r []).getD src default) ∧
        ((c : Int) ∉ indices → (out.getD r []).getD c default = pad) := by
  obtain ⟨out, hcall, _, _, _, hcells⟩ :=
    CountAndCopy_ok params indices W pad params_rows params_cols output hval hrows hrowlen
  exact ⟨out, hcall, hcells⟩

theorem countAndCopy_mapping_correct_witness :
    ValidIndices [7, 4, 2, 3] 10 ∧
    1 ≤ ([[(9 : Int), 9, 9, 9, 9, 9, 9, 9, 9, 9]] : Matrix Int).length ∧
    (∀ r, r < 1 →
      (([[(9 : Int), 9, 9, 9, 9, 9, 9, 9, 9, 9]] : Matrix Int).getD r []).length = 10) ∧
    (∃ out, CountAndCopy [[(11 : Int), 12, 13, 14]] [7, 4, 2, 3] 10 0 1 4
        [[9, 9, 9, 9, 9, 9, 9, 9, 9, 9]] = some (Status.ok, out) ∧
      ∀ r c : Nat, r < 1 → c < 10 →
        (∀ src, src < ([7, 4, 2, 3] : List Int).length →
          ([7, 4, 2, 3] : List Int).getD src 0 = (c : Int) →
          (out.getD r []).getD c default =
            ([[(11 : Int), 12, 13, 14]].getD r []).getD src default) ∧
        ((c : Int) ∉ ([7, 4, 2, 3] : List Int) →
          (out.getD r []).getD c default = 0)) :=
  ⟨by decide, by decide, by decide,
    countAndCopy_mapping_correct [[(11 : Int), 12, 13, 14]] [7, 4, 2, 3] 10 0 1 4
      [[9, 9, 9, 9, 9, 9, 9, 9, 9, 9]] (by decide) (by decide) (by decide)⟩

/-- C2: on the documented example (one row `[11, 12, 13, 14]`, ten output
columns, pad value 0, indices `[7, 4, 2, 3]`) the call succeeds and
produces exactly `[[0, 0, 13, 14, 12, 0, 0, 11, 0, 0]]`. -/
theorem countAndCopy_documented_example :
    CountAndCopy [[(11 : Int), 12, 13, 14]] [7, 4, 2, 3] 10 0 1 4
        [[9, 9, 9, 9, 9, 9, 9, 9, 9, 9]] =
      some (Status.ok, [[0, 0, 13, 14, 12, 0, 0, 11, 0, 0]]) := by
  decide

/-- C3: the call fails exactly when the indices contain a duplicate or a
value outside `[0, W)`; the duplicate failure carries the total and unique
index counts, and the out-of-range failure carries the offending position,
its value, and the bound `W`. -/
theorem countAndCopy_failure_iff {α : Type} [Inhabited α] (params : Matrix α)
    (indices : List Int) (W : Nat) (pad : α) (params_rows params_cols : Nat)
    (output : Matrix α) :
    ((∃ st out', CountAndCopy params indices W pad params_rows params_cols output =
        some (st, out') ∧ st ≠ Status.ok) ↔
      ¬indices.Nodup ∨ ∃ v ∈ indices, ¬(0 ≤ v ∧ v < (W : Int))) ∧
    (¬indices.Nodup →
      CountAndCopy params indices W pad params_rows params_cols output =
        some (Status.duplicateIndexError indices.length indices.dedup.length, output)) ∧
    (indices.Nodup → (∃ v ∈ indices, ¬(0 ≤ v ∧ v < (W : Int))) →
      ∃ p v, CountAndCopy params indices W pad params_rows params_cols output =
          some (Status.outOfRangeIndexError p v W, output) ∧
        p < indices.length ∧ indices.getD p 0 = v ∧ ¬(0 ≤ v ∧ v < (W : Int))) := by
  refine ⟨⟨?_, ?_⟩, ?_, ?_⟩
  · rintro ⟨st, out', hcall, hne⟩
    by_contra hcon
    push_neg at hcon
    obtain ⟨out, hok⟩ := CountAndCopy_ok_any params indices W pad params_rows params_cols
      output ⟨hcon.1, hcon.2⟩
    rw [hok] at hcall
    simp only [Option.some.injEq, Prod.mk.injEq] at hcall
    exact hne hcall.1.symm
  · intro h
    rcases h with hdup | hbad
    · exact ⟨_, _,
        CountAndCopy_dup params indices W pad params_rows params_cols output hdup, by simp⟩
    · by_cases hnd : indices.Nodup
      · obtain ⟨p, v, hcall, _, _, _⟩ := CountAndCopy_range_error params indices W pad
          params_rows params_cols output hnd hbad
        exact ⟨_, _, hcall, by simp⟩
      · exact ⟨_, _,
          CountAndCopy_dup params indices W pad params_rows params_cols output hnd, by simp⟩
  · exact CountAndCopy_dup params indices W pad params_rows params_cols output
  · exact CountAndCopy_range_error params indices W pad params_rows params_cols output

theorem countAndCopy_failure_iff_witness :
    (CountAndCopy [[(5 : Int), 6]] [1, 1] 7 0 1 2 [[9, 9, 9, 9, 9, 9, 9]] =
      some (Status.duplicateIndexError 2 1, [[9, 9, 9, 9, 9, 9, 9]])) ∧
    (CountAndCopy [[(5 : Int)]] [7] 5 0 1 1 [[9, 9, 9, 9, 9]] =
      some (Status.outOfRangeIndexError 0 7 5, [[9, 9, 9, 9, 9]])) := by
  constructor
  · exact (countAndCopy_failure_iff [[(5 : Int), 6]] [1, 1] 7 0 1 2
      [[9, 9, 9, 9, 9, 9, 9]]).2.1 (by decide)
  · obtain ⟨p, v, hcall, hp, hv, _⟩ := (countAndCopy_failure_iff [[(5 : Int)]] [7] 5 0 1 1
      [[9, 9, 9, 9, 9]]).2.2 (by decide) (by decide)
    have hp0 : p = 0 := by simp at hp; omega
    subst hp0
    have hv7 : v = 7 := by simpa using hv.symm
    subst hv7
    exact hcall

/-- C4: whenever `CountAndCopy` returns a failure status, the returned
output matrix is exactly the caller-supplied buffer: both validation
failures return before any write to the output (fail-fast, no partial
output). -/
theorem countAndCopy_fail_fast {α : Type} [Inhabited α] (params : Matrix α)
    (indices : List Int) (W : Nat) (pad : α) (params_rows params_cols : Nat)
    (output : Matrix α) (st : Status) (out' : Matrix α)
    (hcall : CountAndCopy params indices W pad params_rows params_cols output =
      some (st, out'))
    (hne : st ≠ Status.ok) : out' = output := by
  simp only [CountAndCopy] at hcall
  split at hcall
  · simp only [Option.some.injEq, Prod.mk.injEq] at hcall
    exact hcall.2.symm
  · split at hcall
    · simp only [Option.some.injEq, Prod.mk.injEq] at hcall
      exact hcall.2.symm
    · split at hcall
      · cases hcall
      · simp only [Option.some.injEq, Prod.mk.injEq] at hcall
        exact absurd hcall.1.symm hne

theorem countAndCopy_fail_fast_witness :
    ((CountAndCopy [[(5 : Int), 6]] [1, 1] 7 0 1 2 [[9, 9, 9, 9, 9, 9, 9]] =
        some (Status.duplicateIndexError 2 1, [[9, 9, 9, 9, 9, 9, 9]])) ∧
      Status.duplicateIndexError 2 1 ≠ Status.ok) ∧
    ([[(9 : Int), 9, 9, 9, 9, 9, 9]] : Matrix Int) = [[9, 9, 9, 9, 9, 9, 9]] :=
  ⟨⟨by decide, by decide⟩,
    countAndCopy_fail_fast [[(5 : Int), 6]] [1, 1] 7 0 1 2 [[9, 9, 9, 9, 9, 9, 9]]
      (Status.duplicateIndexError 2 1) [[9, 9, 9, 9, 9, 9, 9]] (by decide) (by decide)⟩

/-- C5: the accepted index range is the zero-based half-open interval
`[0, W)`: the value 0 passes the bounds check and an otherwise-valid call
containing it succeeds, while a call whose indices contain the value `W`
itself fails with the out-of-range error, despite the message text of line
54 describing the range as "(0, out_num_cols]". -/
theorem countAndCopy_range_boundary {α : Type} [Inhabited α] (params : Matrix α)
    (indices : List Int) (W : Nat) (pad : α) (params_rows params_cols : Nat)
    (output : Matrix α) :
    (0 < W → FastBoundsCheck 0 W = true) ∧
    (FastBoundsCheck (W : Int) W = false) ∧
    (ValidIndices indices W → (0 : Int) ∈ indices →
      ∃ out, CountAndCopy params indices W pad params_rows params_cols output =
        some (Status.ok, out)) ∧
    (indices.Nodup → (W : Int) ∈ indices →
      ∃ p v, CountAndCopy params indices W pad params_rows params_cols output =
        some (Status.outOfRangeIndexError p v W, output)) := by
  refine ⟨?_, ?_, ?_, ?_⟩
  · intro h
    simp only [FastBoundsCheck, decide_eq_true_eq]
    exact ⟨le_refl 0, by exact_mod_cast h⟩
  · simp [FastBoundsCheck]
  · intro hval _
    exact CountAndCopy_ok_any params indices W pad params_rows params_cols output hval
  · intro hnd hmem
    obtain ⟨p, v, hcall, _, _, _⟩ := CountAndCopy_range_error params indices W pad
      params_rows params_cols output hnd ⟨(W : Int), hmem, by omega⟩
    exact ⟨p, v, hcall⟩

theorem countAndCopy_range_boundary_witness :
    (FastBoundsCheck 0 3 = true) ∧
    (FastBoundsCheck ((3 : Nat) : Int) 3 = false) ∧
    (∃ out, CountAndCopy [[(1 : Int), 2]] [0, 2] 3 7 1 2 [[9, 9, 9]] =
      some (Status.ok, out)) ∧
    (∃ p v, CountAndCopy [[(1 : Int)]] [5] 5 7 1 1 [[9, 9, 9, 9, 9]] =
      some (Status.outOfRangeIndexError p v 5, [[9, 9, 9, 9, 9]])) :=
  ⟨(countAndCopy_range_boundary [[(1 : Int), 2]] [0, 2] 3 7 1 2 [[9, 9, 9]]).1 (by decide),
   (countAndCopy_range_boundary [[(1 : Int), 2]] [0, 2] 3 7 1 2 [[9, 9, 9]]).2.1,
   (countAndCopy_range_boundary [[(1 : Int), 2]] [0, 2] 3 7 1 2 [[9, 9, 9]]).2.2.1
     (by decide) (by decide),
   (countAndCopy_range_boundary [[(1 : Int)]] [5] 5 7 1 1 [[9, 9, 9, 9, 9]]).2.2.2
     (by decide) (by decide)⟩

/-- C6: for a valid input, the per-row column walk writes exactly the
destination columns `0, 1, ..., W - 1`, in order: the walk's write trace is
the full interval `[0, W)`, so every column is written exactly once and
none is skipped or written twice. -/
theorem countAndCopy_writes_each_column_once (indices : List Int) (W : Nat)
    (oi : List Int)
    (hval : ValidIndices indices W)
    (hoi : arrangeOutIndices indices W = Except.ok oi) :
    rowWriteTrace oi (consPadColsAndMax oi W).1 W 0 (W + 1) = some (List.range W) ∧
    ∀ tr, rowWriteTrace oi (consPadColsAndMax oi W).1 W 0 (W + 1) = some tr →
      ∀ c : Nat, tr.count c = if c < W then 1 else 0 := by
  obtain ⟨oi₀, hoi₀, hoilen, _, _⟩ := arrangeOutIndices_spec indices W hval
  rw [hoi] at hoi₀
  have heq : oi = oi₀ := Except.ok.inj hoi₀
  subst heq
  obtain ⟨_, hcget, _⟩ := consPadColsAndMax_spec oi W
  have htr := rowWriteTrace_spec oi (consPadColsAndMax oi W).1 W hoilen hcget (W + 1) 0
    (Nat.zero_le W) (by omega)
  have hrange : List.range' 0 (W - 0) = List.range W := by
    rw [List.range_eq_range', Nat.sub_zero]
  constructor
  · rw [htr, hrange]
  · intro tr htr' c
    rw [htr, hrange] at htr'
    have heq' : tr = List.range W := (Option.some.inj htr').symm
    subst heq'
    by_cases hc : c < W
    · rw [if_pos hc]
      exact List.count_eq_one_of_mem (List.nodup_range W) (List.mem_range.mpr hc)
    · rw [if_neg hc]
      exact List.count_eq_zero_of_not_mem (by rw [List.mem_range]; omega)

theorem countAndCopy_writes_each_column_once_witness :
    rowWriteTrace [-1, -1, 2, 3, 1, -1, -1, 0, -1, -1]
        (consPadColsAndMax [-1, -1, 2, 3, 1, -1, -1, 0, -1, -1] 10).1 10 0 11 =
      some (List.range 10) ∧
    ∀ tr, rowWriteTrace [-1, -1, 2, 3, 1, -1, -1, 0, -1, -1]
        (consPadColsAndMax [-1, -1, 2, 3, 1, -1, -1, 0, -1, -1] 10).1 10 0 11 = some tr →
      ∀ c : Nat, tr.count c = if c < 10 then 1 else 0 :=
  countAndCopy_writes_each_column_once [7, 4, 2, 3] 10
    [-1, -1, 2, 3, 1, -1, -1, 0, -1, -1] (by decide) (by rfl)

/-- C7: when `W = C` and the indices are a permutation of `[0, C)`, the
call succeeds, the output is `params` with its columns permuted
(`output(r, indices i) = params(r, i)`), and the pad value is never read:
any two pad values give identical results. -/
theorem countAndCopy_permutation {α : Type} [Inhabited α] (params : Matrix α)
    (indices : List Int) (W : Nat) (pad pad' : α) (params_rows params_cols : Nat)
    (output : Matrix α)
    (hval : ValidIndices indices W) (hlen : indices.length = W)
    (hrows : params_rows ≤ output.length)
    (hrowlen : ∀ r, r < params_rows → (output.getD r []).length = W) :
    ∃ out, CountAndCopy params indices W pad params_rows params_cols output =
        some (Status.ok, out) ∧
      (∀ r i, r < params_rows → i < indices.length →
        (out.getD r []).getD (indices.getD i 0).toNat default =
          (params.getD r []).getD i default) ∧
      CountAndCopy params indices W pad' params_rows params_cols output =
        CountAndCopy params indices W pad params_rows params_cols output := by
  obtain ⟨oi, hoi, hoilen, hmapped, _⟩ := arrangeOutIndices_spec indices W hval
  obtain ⟨_, hcget, _⟩ := consPadColsAndMax_spec oi W
  have hall : ∀ c, c < W → 0 ≤ oi.getD c (-1) := by
    intro c hc
    have hmem : (c : Int) ∈ indices := all_mapped_of_full indices W hval hlen c hc
    obtain ⟨j, hj, hjv⟩ := List.mem_iff_getElem.mp hmem
    have hjd : indices.getD j 0 = (c : Int) := by
      rw [List.getD_eq_getElem indices 0 hj, hjv]
    have := hmapped j hj
    rw [hjd] at this
    rw [show ((c : Int)).toNat = c by simp] at this
    rw [this]
    exact Int.ofNat_zero_le j
  obtain ⟨out, hcall, _, _, _, hcells⟩ :=
    CountAndCopy_ok params indices W pad params_rows params_cols output hval hrows hrowlen
  refine ⟨out, hcall, fun r i hr hi => ?_, ?_⟩
  · have hmemi : indices.getD i 0 ∈ indices := by
      rw [List.getD_eq_getElem indices 0 hi]
      exact List.getElem_mem hi
    have hrange := hval.2 _ hmemi
    have hcW : (indices.getD i 0).toNat < W := by omega
    have hback : indices.getD i 0 = (((indices.getD i 0).toNat : Nat) : Int) := by
      rw [Int.toNat_of_nonneg hrange.1]
    exact (hcells r (indices.getD i 0).toNat hr hcW).1 i hi hback.symm.symm ▸
      ((hcells r (indices.getD i 0).toNat hr hcW).1 i hi (by rw [← hback]))
  · have hsome : ∀ (prow orow : List α),
        (copyRow prow oi (consPadColsAndMax oi W).1 W
          (List.replicate (consPadColsAndMax oi W).2 pad) orow 0 (W + 1)).isSome :=
      fun prow orow =>
        copyRow_isSome prow oi (consPadColsAndMax oi W).1 W
          (List.replicate (consPadColsAndMax oi W).2 pad) hoilen hcget (W + 1) 0 orow
          (Nat.zero_le W) (by omega)
    obtain ⟨outc, hcr⟩ := Option.isSome_iff_exists.mp
      (copyRows_isSome params oi (consPadColsAndMax oi W).1 W
        (List.replicate (consPadColsAndMax oi W).2 pad) hsome params_rows 0 output)
    have hcr' : copyRows params oi (consPadColsAndMax oi W).1 W
        (List.replicate (consPadColsAndMax oi W).2 pad') 0 params_rows output =
        some outc := by
      rw [← copyRows_padVec_irrel params oi (consPadColsAndMax oi W).1 W
        (List.replicate (consPadColsAndMax oi W).2 pad)
        (List.replicate (consPadColsAndMax oi W).2 pad') hall params_rows 0 output]
      exact hcr
    have hcallc : CountAndCopy params indices W pad params_rows params_cols output =
        some (Status.ok, outc) :=
      CountAndCopy_pipeline params indices W pad params_rows params_cols output oi outc
        hval.1 hoi hcr
    have hcallc' : CountAndCopy params indices W pad' params_rows params_cols output =
        some (Status.ok, outc) :=
      CountAndCopy_pipeline params indices W pad' params_rows params_cols output oi outc
        hval.1 hoi hcr'
    rw [hcallc', hcallc]

theorem countAndCopy_permutation_witness :
    ∃ out, CountAndCopy [[(1 : Int), 2, 3]] [2, 0, 1] 3 99 1 3 [[9, 9, 9]] =
        some (Status.ok, out) ∧
      (∀ r i, r < 1 → i < ([2, 0, 1] : List Int).length →
        (out.getD r []).getD (([2, 0, 1] : List Int).getD i 0).toNat default =
          ([[(1 : Int), 2, 3]].getD r []).getD i default) ∧
      CountAndCopy [[(1 : Int), 2, 3]] [2, 0, 1] 3 5 1 3 [[9, 9, 9]] =
        CountAndCopy [[(1 : Int), 2, 3]] [2, 0, 1] 3 99 1 3 [[9, 9, 9]] :=
  countAndCopy_permutation [[(1 : Int), 2, 3]] [2, 0, 1] 3 99 5 1 3 [[9, 9, 9]]
    (by decide) (by decide) (by decide) (by decide)

/-- C8: rows are independent: row `r` of the output depends only on row `r`
of `params`, and equals the row produced by a single-row call on that row
alone. -/
theorem countAndCopy_row_independence {α : Type} [Inhabited α]
    (params params₂ : Matrix α) (indices : List Int) (W : Nat) (pad : α)
    (params_rows params_cols : Nat) (output : Matrix α) (r : Nat)
    (hval : ValidIndices indices W)
    (hrows : params_rows ≤ output.length)
    (hr : r < params_rows)
    (hsame : params₂.getD r [] = params.getD r []) :
    ∃ out out₂ outS,
      CountAndCopy params indices W pad params_rows params_cols output =
        some (Status.ok, out) ∧
      CountAndCopy params₂ indices W pad params_rows params_cols output =
        some (Status.ok, out₂) ∧
      CountAndCopy [params.getD r []] indices W pad 1 params_cols
        [output.getD r []] = some (Status.ok, outS) ∧
      out₂.getD r [] = out.getD r [] ∧
      outS.getD 0 [] = out.getD r [] := by
  obtain ⟨oi, hoi, hoilen, _, _⟩ := arrangeOutIndices_spec indices W hval
  obtain ⟨_, hcget, _⟩ := consPadColsAndMax_spec oi W
  have hsome : ∀ (prow orow : List α),
      (copyRow prow oi (consPadColsAndMax oi W).1 W
        (List.replicate (consPadColsAndMax oi W).2 pad) orow 0 (W + 1)).isSome :=
    fun prow orow =>
      copyRow_isSome prow oi (consPadColsAndMax oi W).1 W
        (List.replicate (consPadColsAndMax oi W).2 pad) hoilen hcget (W + 1) 0 orow
        (Nat.zero_le W) (by omega)
  obtain ⟨out, hcr, _, _, hdone⟩ :=
    copyRows_spec params oi (consPadColsAndMax oi W).1 W
      (List.replicate (consPadColsAndMax oi W).2 pad) hsome params_rows 0 output (by omega)
  obtain ⟨out₂, hcr₂, _, _, hdone₂⟩ :=
    copyRows_spec params₂ oi (consPadColsAndMax oi W).1 W
      (List.replicate (consPadColsAndMax oi W).2 pad) hsome params_rows 0 output (by omega)
  obtain ⟨outS, hcrS, _, _, hdoneS⟩ :=
    copyRows_spec [params.getD r []] oi (consPadColsAndMax oi W).1 W
      (List.replicate (consPadColsAndMax oi W).2 pad) hsome 1 0 [output.getD r []]
      (by simp)
  have h1 := hdone r (Nat.zero_le r) (by omega)
  have h2 := hdone₂ r (Nat.zero_le r) (by omega)
  rw [hsame] at h2
  have h3 := hdoneS 0 (Nat.le_refl 0) (by omega)
  rw [List.getD_cons_zero, List.getD_cons_zero] at h3
  refine ⟨out, out₂, outS,
    CountAndCopy_pipeline params indices W pad params_rows params_cols output oi out
      hval.1 hoi hcr,
    CountAndCopy_pipeline params₂ indices W pad params_rows params_cols output oi out₂
      hval.1 hoi hcr₂,
    CountAndCopy_pipeline [params.getD r []] indices W pad 1 params_cols
      [output.getD r []] oi outS hval.1 hoi hcrS, ?_, ?_⟩
  · rw [h1] at h2
    exact (Option.some.inj h2).symm
  · rw [h1] at h3
    exact (Option.some.inj h3).symm

theorem countAndCopy_row_independence_witness :
    ∃ out out₂ outS,
      CountAndCopy [[(1 : Int), 2], [3, 4]] [1, 0] 2 0 2 2 [[9, 9], [9, 9]] =
        some (Status.ok, out) ∧
      CountAndCopy [[(1 : Int), 2], [5, 6]] [1, 0] 2 0 2 2 [[9, 9], [9, 9]] =
        some (Status.ok, out₂) ∧
      CountAndCopy [([[(1 : Int), 2], [3, 4]] : Matrix Int).getD 0 []] [1, 0] 2 0 1 2
        [([[(9 : Int), 9], [9, 9]] : Matrix Int).getD 0 []] = some (Status.ok, outS) ∧
      out₂.getD 0 [] = out.getD 0 [] ∧
      outS.getD 0 [] = out.getD 0 [] :=
  countAndCopy_row_independence [[(1 : Int), 2], [3, 4]] [[(1 : Int), 2], [5, 6]]
    [1, 0] 2 0 2 2 [[9, 9], [9, 9]] 0 (by decide) (by decide) (by decide) (by decide)

/-- C9: although `CountAndCopy` has no explicit check that `W ≥ C`, every
call with more indices than output columns fails validation before any
output write, with either the duplicate or the out-of-range error: the
index values cannot be simultaneously pairwise distinct and all inside
`[0, W)`. -/
theorem countAndCopy_rejects_too_many_columns {α : Type} [Inhabited α]
    (params : Matrix α) (indices : List Int) (W : Nat) (pad : α)
    (params_rows params_cols : Nat) (output : Matrix α)
    (hCW : W < indices.length) :
    ∃ st, CountAndCopy params indices W pad params_rows params_cols output =
        some (st, output) ∧ st ≠ Status.ok ∧
      ((∃ t u, st = Status.duplicateIndexError t u) ∨
        ∃ p v, st = Status.outOfRangeIndexError p v W) := by
  by_cases hnd : indices.Nodup
  · have hbad : ∃ v ∈ indices, ¬(0 ≤ v ∧ v < (W : Int)) := by
      by_contra hcon
      push_neg at hcon
      have hsub : indices.toFinset ⊆ Finset.Ico (0 : Int) (W : Int) := by
        intro v hv
        rw [List.mem_toFinset] at hv
        rw [Finset.mem_Ico]
        exact hcon v hv
      have hcard : indices.toFinset.card = indices.length := by
        rw [List.card_toFinset, List.Nodup.dedup hnd]
      have hIco : (Finset.Ico (0 : Int) (W : Int)).card = W := by
        rw [Int.card_Ico]
        simp
      have := Finset.card_le_card hsub
      omega
    obtain ⟨p, v, hcall, _, _, _⟩ := CountAndCopy_range_error params indices W pad
      params_rows params_cols output hnd hbad
    exact ⟨_, hcall, by simp, Or.inr ⟨p, v, rfl⟩⟩
  · exact ⟨_, CountAndCopy_dup params indices W pad params_rows params_cols output hnd,
      by simp, Or.inl ⟨_, _, rfl⟩⟩

theorem countAndCopy_rejects_too_many_columns_witness :
    ∃ st, CountAndCopy [[(1 : Int), 2, 3]] [0, 1, 2] 2 0 1 3 [[9, 9]] =
        some (st, [[9, 9]]) ∧ st ≠ Status.ok ∧
      ((∃ t u, st = Status.duplicateIndexError t u) ∨
        ∃ p v, st = Status.outOfRangeIndexError p v 2) :=
  countAndCopy_rejects_too_many_columns [[(1 : Int), 2, 3]] [0, 1, 2] 2 0 1 3 [[9, 9]]
    (by decide)

/-- C10: the compressor assigns a run length of at least 1 to every padding
column, so each iteration of the per-row column walk advances by at least
one and the whole call terminates (is `some`, never the fuel-exhaustion
`none`) on every input that passes validation. -/
theorem countAndCopy_terminates {α : Type} [Inhabited α] (params : Matrix α)
    (indices : List Int) (W : Nat) (pad : α) (params_rows params_cols : Nat)
    (output : Matrix α) (oi : List Int)
    (hval : ValidIndices indices W)
    (hoi : arrangeOutIndices indices W = Except.ok oi) :
    (∀ c, c < W → oi.getD c (-1) < 0 → 1 ≤ (consPadColsAndMax oi W).1.getD c 0) ∧
    (CountAndCopy params indices W pad params_rows params_cols output).isSome := by
  obtain ⟨oi₀, hoi₀, hoilen, _, _⟩ := arrangeOutIndices_spec indices W hval
  rw [hoi] at hoi₀
  have heq : oi = oi₀ := Except.ok.inj hoi₀
  subst heq
  obtain ⟨_, hcget, _⟩ := consPadColsAndMax_spec oi W
  constructor
  · intro c hc hneg
    rw [hcget c]
    have hneg0 : oi.getD c 0 < 0 := by
      rw [getD_irrel oi c 0 (-1) (by omega)]
      omega
    rw [runLen_succ oi W c hc hneg0]
    omega
  · obtain ⟨out, hout⟩ :=
      CountAndCopy_ok_any params indices W pad params_rows params_cols output hval
    rw [hout]
    rfl

theorem countAndCopy_terminates_witness :
    (∀ c, c < 10 → ([-1, -1, 2, 3, 1, -1, -1, 0, -1, -1] : List Int).getD c (-1) < 0 →
      1 ≤ (consPadColsAndMax [-1, -1, 2, 3, 1, -1, -1, 0, -1, -1] 10).1.getD c 0) ∧
    (CountAndCopy [[(11 : Int), 12, 13, 14]] [7, 4, 2, 3] 10 0 1 4
      [[9, 9, 9, 9, 9, 9, 9, 9, 9, 9]]).isSome :=
  countAndCopy_terminates [[(11 : Int), 12, 13, 14]] [7, 4, 2, 3] 10 0 1 4
    [[9, 9, 9, 9, 9, 9, 9, 9, 9, 9]] [-1, -1, 2, 3, 1, -1, -1, 0, -1, -1]
    (by decide) (by rfl)

end ScatterColumns
